import Mathlib

/-!
Shallow embedding of the REAT interval-counting and strand-resolution core,
translated from the Rust sources under src/.  32-bit floating point counts
(f32) are modelled by exact rationals, with f32::EPSILON embedded as the
exact rational 2^-23; all concrete inputs used below are far from any
rounding boundary, so the rational model agrees with f32 evaluation there.
-/

namespace Reat

/-- The constant f32::EPSILON = 2^-23, as an exact rational. -/
def f32EPSILON : ℚ := 1 / 8388608

/-- Strand, from bio_types::strand::Strand: Forward / Reverse / Unknown. -/
inductive Strand where
  | Forward
  | Reverse
  | Unknown
deriving DecidableEq, Repr

/-- Strand::is_unknown from bio_types. -/
def Strand.is_unknown : Strand → Bool
  | .Unknown => true
  | _ => false

/-- Same::same for Strand from bio_types: equality of the three variants. -/
def Strand.same : Strand → Strand → Bool
  | .Forward, .Forward => true
  | .Reverse, .Reverse => true
  | .Unknown, .Unknown => true
  | _, _ => false

/-- Strand::strand_symbol from bio_types: "+", "-", ".". -/
def Strand.strand_symbol : Strand → String
  | .Forward => "+"
  | .Reverse => "-"
  | .Unknown => "."

/-- Nucleotide, from src/core/dna (A, C, G, T or Unknown). -/
inductive Nucleotide where
  | A
  | C
  | G
  | T
  | Unknown
deriving DecidableEq, Repr

/-- NucCounts from src/core/dna: four u32 tallies, one per base symbol. -/
structure NucCounts where
  A : ℕ
  C : ℕ
  G : ℕ
  T : ℕ
deriving DecidableEq, Repr

/-- NucCounts::zeros. -/
def NucCounts.zeros : NucCounts := ⟨0, 0, 0, 0⟩

/-- NucCounts::coverage: sum of the four tallies. -/
def NucCounts.coverage (c : NucCounts) : ℕ := c.A + c.C + c.G + c.T

/-- FracNucCounts from src/core/dna: four f32 tallies (modelled as ℚ). -/
structure FracNucCounts where
  A : ℚ
  C : ℚ
  G : ℚ
  T : ℚ
deriving DecidableEq, Repr

/-- FracNucCounts::zeros. -/
def FracNucCounts.zeros : FracNucCounts := ⟨0, 0, 0, 0⟩

/-- ROINucCounts from src/core/mismatches/roi: the observed-base by
reference-base matrix of f32 counts, one FracNucCounts row per
reference base. -/
structure ROINucCounts where
  A : FracNucCounts
  C : FracNucCounts
  G : FracNucCounts
  T : FracNucCounts
deriving DecidableEq, Repr

/-- ROINucCounts::zeros. -/
def ROINucCounts.zeros : ROINucCounts :=
  ⟨FracNucCounts.zeros, FracNucCounts.zeros, FracNucCounts.zeros, FracNucCounts.zeros⟩

/-- StrandByAtoIEditing from src/core/stranding/predict/algo/editing.rs:
minimum mismatch count (u32) and minimum mismatch frequency (f32). -/
structure StrandByAtoIEditing where
  minmismatches : ℕ
  minfreq : ℚ
deriving DecidableEq, Repr

/-- StrandByAtoIEditing::edited, translated from editing.rs lines 21-25
(the source parameter names matches/mismatches are rendered matchcnt and
mismcnt): let coverage = mismatches + matches;
coverage > f32::EPSILON && mismatches >= minmismatches as f32
  && (mismatches / coverage) >= minfreq. -/
def StrandByAtoIEditing.edited (s : StrandByAtoIEditing) (matchcnt mismcnt : ℚ) : Bool :=
  let coverage := mismcnt + matchcnt
  decide (f32EPSILON < coverage) && decide ((s.minmismatches : ℚ) ≤ mismcnt)
    && decide (s.minfreq ≤ mismcnt / coverage)

/-- StrandByAtoIEditing::sitepred, translated from editing.rs lines 27-46:
per-base strand rule given sequenced tallies and a reference nucleotide. -/
def StrandByAtoIEditing.sitepred (s : StrandByAtoIEditing) (sequenced : NucCounts)
    (refnuc : Nucleotide) : Strand :=
  match refnuc with
  | .A => if s.edited (sequenced.A : ℚ) (sequenced.G : ℚ) then .Forward else .Unknown
  | .T => if s.edited (sequenced.T : ℚ) (sequenced.C : ℚ) then .Reverse else .Unknown
  | .C => .Unknown
  | .G => .Unknown
  | .Unknown => .Unknown

/-- StrandByAtoIEditing::roipred, translated from editing.rs lines 48-76:
per-region strand call from the A→G and T→C channels with tie-break on
normalized editing ratios. -/
def StrandByAtoIEditing.roipred (s : StrandByAtoIEditing) (mismatches : ROINucCounts) : Strand :=
  let a2g := s.edited mismatches.A.A mismatches.A.G
  let t2c := s.edited mismatches.T.T mismatches.T.C
  match a2g, t2c with
  | false, false => .Unknown
  | false, true => .Reverse
  | true, false => .Forward
  | true, true =>
    let a2g_coverage := mismatches.A.A + mismatches.A.G
    let t2c_coverage := mismatches.T.T + mismatches.T.C
    if a2g_coverage ≤ f32EPSILON ∧ t2c_coverage ≤ f32EPSILON then
      .Unknown
    else
      let a2g_ratio := mismatches.A.G / a2g_coverage
      let t2c_ratio := mismatches.T.C / t2c_coverage
      if f32EPSILON < mismatches.A.G ∧ t2c_ratio < a2g_ratio then .Forward
      else if f32EPSILON < mismatches.T.C ∧ a2g_ratio < t2c_ratio then .Reverse
      else .Unknown

/-- PredNucleotide from src/core/refpred: a homozygous call or a
heterozygous pair. -/
inductive PredNucleotide where
  | Homozygous (nuc : Nucleotide)
  | Heterozygous (n1 n2 : Nucleotide)
deriving DecidableEq, Repr

/-- One per-site record, as seen by the site-level predict in editing.rs:
the sequenced tallies and the predicted reference call. -/
structure SiteRec where
  sequenced : NucCounts
  prednuc : PredNucleotide
deriving DecidableEq, Repr

/-- The per-record body of StrandingAlgo<SiteMismatchesVec>::predict,
translated from editing.rs lines 85-100: homozygous records use sitepred
directly, heterozygous records resolve both alleles and reconcile. -/
def StrandByAtoIEditing.sitePredict (s : StrandByAtoIEditing) (rec : SiteRec) : Strand :=
  match rec.prednuc with
  | .Homozygous nuc => s.sitepred rec.sequenced nuc
  | .Heterozygous n1 n2 =>
    let s1 := s.sitepred rec.sequenced n1
    let s2 := s.sitepred rec.sequenced n2
    match s1.is_unknown, s2.is_unknown with
    | false, true => s1
    | true, false => s2
    | false, false => if s1.same s2 then s1 else .Unknown
    | true, true => .Unknown

/-- A record handled by the ROI stranding engine: its strand plus an opaque
payload standing for the rest of the mismatches record. -/
structure StrandedRec (α : Type*) where
  strand : Strand
  payload : α
deriving DecidableEq, Repr

/-- One predictor algorithm of the engine, as the per-record strand assignment
that assort_strands applies over the currently unknown records (the trait
object ROIStrandPredictor instantiated by StrandingAlgo implementations). -/
def applyPred {α : Type*} (p : StrandedRec α → Strand) (r : StrandedRec α) : StrandedRec α :=
  { r with strand := p r }

/-- The predictor loop of ROIStrandingEngine::strand, engine.rs lines 25-37:
run each predictor over the unknown records, partition its output, accumulate
resolved records, carry still-unknown records forward, and append whatever is
left after the last predictor. -/
def engineLoop {α : Type*} (preds : List (StrandedRec α → Strand))
    (unknown result : List (StrandedRec α)) : List (StrandedRec α) :=
  match preds with
  | [] => result ++ unknown
  | p :: rest =>
    if unknown.isEmpty then result
    else
      let out := unknown.map (applyPred p)
      let part := out.partition (fun x => x.strand.is_unknown)
      engineLoop rest part.1 (result ++ part.2)

/-- ROIStrandingEngine::strand, engine.rs lines 20-40: partition the batch
into unknown and already-resolved records and run the predictor cascade over
the unknown part. -/
def ROIStrandingEngine.strand {α : Type*} (preds : List (StrandedRec α → Strand))
    (items : List (StrandedRec α)) : List (StrandedRec α) :=
  let part := items.partition (fun x => x.strand.is_unknown)
  engineLoop preds part.1 part.2

/-- The cascade of predictors applied to a single record: predictors are tried
in order until one assigns a non-Unknown strand. -/
def cascadeStrand {α : Type*} (preds : List (StrandedRec α → Strand))
    (r : StrandedRec α) : StrandedRec α :=
  match preds with
  | [] => r
  | p :: rest =>
    let r2 := applyPred p r
    if r2.strand.is_unknown then cascadeStrand rest r2 else r2

/-- The per-record effect of the whole engine: already-resolved records are
left alone, unknown records go through the predictor cascade. -/
def resolveRecord {α : Type*} (preds : List (StrandedRec α → Strand))
    (r : StrandedRec α) : StrandedRec α :=
  if r.strand.is_unknown then cascadeStrand preds r else r

theorem Strand.is_unknown_iff (s : Strand) : s.is_unknown = true ↔ s = .Unknown := by
  cases s <;> simp [Strand.is_unknown]

theorem filter_append_map_filter_perm {β : Type*} (l : List β) (p : β → Bool) (f : β → β) :
    List.Perm (l.filter (fun x => !(p x)) ++ (l.filter p).map f)
      (l.map (fun y => if p y then f y else y)) := by
  induction l with
  | nil => simp
  | cons y t ih =>
    by_cases hy : p y = true
    · simpa [hy] using (List.perm_middle.trans (ih.cons (f y)))
    · simp only [Bool.not_eq_true] at hy
      simpa [hy] using ih.cons y

theorem engineLoop_perm {α : Type*} (preds : List (StrandedRec α → Strand)) :
    ∀ (unknown result : List (StrandedRec α)),
      List.Perm (engineLoop preds unknown result)
        (result ++ unknown.map (cascadeStrand preds)) := by
  induction preds with
  | nil => intro unknown result; simp [engineLoop, cascadeStrand]
  | cons p rest ih =>
    intro unknown result
    by_cases hu : unknown.isEmpty
    · rw [List.isEmpty_iff] at hu
      simp [engineLoop, hu]
    · rw [engineLoop, if_neg hu]
      refine (ih _ _).trans ?_
      rw [List.partition_eq_filter_filter, List.append_assoc]
      refine (List.Perm.append_left result ?_)
      have hmap : unknown.map (cascadeStrand (p :: rest))
          = (unknown.map (applyPred p)).map
              (fun y => if y.strand.is_unknown then cascadeStrand rest y else y) := by
        rw [List.map_map]; rfl
      rw [hmap]
      exact filter_append_map_filter_perm (unknown.map (applyPred p))
        (fun x => x.strand.is_unknown) (cascadeStrand rest)

theorem strand_perm_resolve {α : Type*} (preds : List (StrandedRec α → Strand))
    (items : List (StrandedRec α)) :
    List.Perm (ROIStrandingEngine.strand preds items) (items.map (resolveRecord preds)) := by
  rw [ROIStrandingEngine.strand, List.partition_eq_filter_filter]
  refine (engineLoop_perm preds _ _).trans ?_
  exact filter_append_map_filter_perm items (fun x => x.strand.is_unknown) (cascadeStrand preds)

theorem cascadeStrand_of_still_unknown {α : Type*} (preds : List (StrandedRec α → Strand)) :
    ∀ (r : StrandedRec α), r.strand = .Unknown →
      (cascadeStrand preds r).strand.is_unknown = true → cascadeStrand preds r = r := by
  induction preds with
  | nil => intro r _ _; rfl
  | cons p rest ih =>
    intro r hr hu
    rw [cascadeStrand] at hu ⊢
    by_cases h2 : (applyPred p r).strand.is_unknown = true
    · rw [if_pos h2] at hu ⊢
      have heq : applyPred p r = r := by
        have : p r = .Unknown := by
          have := (Strand.is_unknown_iff _).mp h2
          simpa [applyPred] using this
        cases r with
        | mk s pl => simp_all [applyPred]
      rw [heq] at hu ⊢
      exact ih r hr hu
    · rw [if_neg h2] at hu
      exact absurd hu h2

/-- C3: for every batch given to the ROI Strand Prediction Engine, the output
is a permutation of the input records with each unknown record replaced by its
predictor-cascade resolution (so no record is dropped or invented and the
operation is total); every record entering with Forward or Reverse strand
appears unchanged in the output; and every record the cascade leaves Unknown
appears in the output still carrying the Unknown strand. -/
theorem claim_C3 {α : Type*} (preds : List (StrandedRec α → Strand))
    (items : List (StrandedRec α)) :
    (List.Perm (ROIStrandingEngine.strand preds items) (items.map (resolveRecord preds)))
    ∧ (∀ r ∈ items, r.strand.is_unknown = false → r ∈ ROIStrandingEngine.strand preds items)
    ∧ (∀ r ∈ items, r.strand.is_unknown = true →
        (cascadeStrand preds r).strand.is_unknown = true →
        r ∈ ROIStrandingEngine.strand preds items) := by
  have hperm := strand_perm_resolve preds items
  refine ⟨hperm, ?_, ?_⟩
  · intro r hr hf
    have : resolveRecord preds r = r := by
      rw [resolveRecord, if_neg]; simp [hf]
    rw [hperm.mem_iff, ← this]
    exact List.mem_map_of_mem _ hr
  · intro r hr ht hc
    have : resolveRecord preds r = r := by
      rw [resolveRecord, if_pos ht]
      exact cascadeStrand_of_still_unknown preds r ((Strand.is_unknown_iff _).mp ht) hc
    rw [hperm.mem_iff, ← this]
    exact List.mem_map_of_mem _ hr

/-- C3 witness: in a concrete batch run through one predictor, the record that
entered as Forward is still present unchanged, and the record the predictor
left Unknown is still present as Unknown. -/
theorem claim_C3_witness :
    (⟨.Forward, 0⟩ : StrandedRec ℕ) ∈
      ROIStrandingEngine.strand [fun _ => Strand.Unknown]
        [⟨.Forward, 0⟩, ⟨.Unknown, 1⟩]
    ∧ (⟨.Unknown, 1⟩ : StrandedRec ℕ) ∈
      ROIStrandingEngine.strand [fun _ => Strand.Unknown]
        [⟨.Forward, 0⟩, ⟨.Unknown, 1⟩] :=
  ⟨(claim_C3 [fun _ => Strand.Unknown] [⟨.Forward, 0⟩, ⟨.Unknown, 1⟩]).2.1
      ⟨.Forward, 0⟩ (by simp) (by rfl),
    (claim_C3 [fun _ => Strand.Unknown] [⟨.Forward, 0⟩, ⟨.Unknown, 1⟩]).2.2
      ⟨.Unknown, 1⟩ (by simp) (by rfl) (by rfl)⟩

/-- C1: editing-index ROI strand call with minmismatches = 8 and minfreq = 0.05:
A→G channel alone qualifying at matches = 8, mismatches = 8 gives Forward; the
T→C channel alone gives Reverse; both channels qualifying with equal normalized
ratios give Unknown; and when both qualify, a strictly greater normalized ratio
on one channel wins the tie. -/
theorem claim_C1 :
    (StrandByAtoIEditing.roipred ⟨8, 1/20⟩
      ⟨⟨8, 0, 8, 0⟩, FracNucCounts.zeros, FracNucCounts.zeros, FracNucCounts.zeros⟩
        = .Forward)
    ∧ (StrandByAtoIEditing.roipred ⟨8, 1/20⟩
      ⟨FracNucCounts.zeros, FracNucCounts.zeros, FracNucCounts.zeros, ⟨0, 8, 0, 8⟩⟩
        = .Reverse)
    ∧ (StrandByAtoIEditing.roipred ⟨8, 1/20⟩
      ⟨⟨8, 0, 8, 0⟩, FracNucCounts.zeros, FracNucCounts.zeros, ⟨0, 8, 0, 8⟩⟩
        = .Unknown)
    ∧ (StrandByAtoIEditing.roipred ⟨8, 1/20⟩
      ⟨⟨10, 0, 10, 0⟩, FracNucCounts.zeros, FracNucCounts.zeros, ⟨0, 11, 0, 10⟩⟩
        = .Reverse)
    ∧ (StrandByAtoIEditing.roipred ⟨8, 1/20⟩
      ⟨⟨10, 0, 11, 0⟩, FracNucCounts.zeros, FracNucCounts.zeros, ⟨0, 10, 0, 10⟩⟩
        = .Forward) := by
  refine ⟨?_, ?_, ?_, ?_, ?_⟩ <;>
    norm_num [StrandByAtoIEditing.roipred, StrandByAtoIEditing.edited,
      FracNucCounts.zeros, f32EPSILON]

/-- C2 counterexample: a heterozygous (A, C) per-site record where the A allele
resolves to Forward and the C allele resolves to Unknown; the two individually
resolved strands do not agree, yet the predicted strand is Forward, not
Unknown. This falsifies the claim that a non-Unknown strand is returned only
when the two individually resolved strands agree. -/
theorem claim_C2_counterexample :
    StrandByAtoIEditing.sitePredict ⟨8, 1/20⟩
      ⟨⟨8, 0, 8, 0⟩, .Heterozygous .A .C⟩ = .Forward
    ∧ StrandByAtoIEditing.sitepred ⟨8, 1/20⟩ ⟨8, 0, 8, 0⟩ .A = .Forward
    ∧ StrandByAtoIEditing.sitepred ⟨8, 1/20⟩ ⟨8, 0, 8, 0⟩ .C = .Unknown
    ∧ ¬(StrandByAtoIEditing.sitepred ⟨8, 1/20⟩ ⟨8, 0, 8, 0⟩ .A).same
        (StrandByAtoIEditing.sitepred ⟨8, 1/20⟩ ⟨8, 0, 8, 0⟩ .C) = true := by
  refine ⟨?_, ?_, ?_, ?_⟩ <;>
    norm_num [StrandByAtoIEditing.sitePredict, StrandByAtoIEditing.sitepred,
      StrandByAtoIEditing.edited, Strand.is_unknown, Strand.same, f32EPSILON]

/-- C2 amended: for a heterozygous per-site record the predictor resolves both
alleles individually; the record gets a non-Unknown strand exactly when at
least one allele resolves and, if both resolve, they agree; in that case the
returned strand is the resolved one (when one allele resolves) or the common
strand (when both resolve and agree); otherwise the record is Unknown. -/
theorem claim_C2_amended (s : StrandByAtoIEditing) (seq : NucCounts) (n1 n2 : Nucleotide) :
    (s.sitePredict ⟨seq, .Heterozygous n1 n2⟩ ≠ .Unknown ↔
      ((s.sitepred seq n1 ≠ .Unknown ∨ s.sitepred seq n2 ≠ .Unknown) ∧
        (s.sitepred seq n1 ≠ .Unknown → s.sitepred seq n2 ≠ .Unknown →
          s.sitepred seq n1 = s.sitepred seq n2)))
    ∧ (s.sitepred seq n1 ≠ .Unknown → s.sitepred seq n2 = .Unknown →
        s.sitePredict ⟨seq, .Heterozygous n1 n2⟩ = s.sitepred seq n1)
    ∧ (s.sitepred seq n1 = .Unknown → s.sitepred seq n2 ≠ .Unknown →
        s.sitePredict ⟨seq, .Heterozygous n1 n2⟩ = s.sitepred seq n2)
    ∧ (s.sitepred seq n1 ≠ .Unknown → s.sitepred seq n1 = s.sitepred seq n2 →
        s.sitePredict ⟨seq, .Heterozygous n1 n2⟩ = s.sitepred seq n1) := by
  simp only [StrandByAtoIEditing.sitePredict]
  generalize s.sitepred seq n1 = a
  generalize s.sitepred seq n2 = b
  cases a <;> cases b <;> simp [Strand.is_unknown, Strand.same]

/-- C2 amended, witness: the amended characterization applied to a concrete
heterozygous (A, C) record where only the A allele resolves. -/
theorem claim_C2_amended_witness :
    StrandByAtoIEditing.sitePredict ⟨8, 1/20⟩
        ⟨⟨8, 0, 8, 0⟩, .Heterozygous .A .C⟩
      = StrandByAtoIEditing.sitepred ⟨8, 1/20⟩ ⟨8, 0, 8, 0⟩ .A :=
  (claim_C2_amended ⟨8, 1/20⟩ ⟨8, 0, 8, 0⟩ .A .C).2.1
    (by
      have h : StrandByAtoIEditing.sitepred ⟨8, 1/20⟩ ⟨8, 0, 8, 0⟩ .A = .Forward := by
        norm_num [StrandByAtoIEditing.sitepred, StrandByAtoIEditing.edited, f32EPSILON]
      rw [h]
      exact fun hc => Strand.noConfusion hc)
    (by norm_num [StrandByAtoIEditing.sitepred])

/-- C9: whenever both the A→G and T→C channels qualify as edited, each
channel's coverage is strictly above f32::EPSILON, so the branch of roipred
that returns Unknown because both coverages are at most f32::EPSILON is
unreachable, and the call is decided by comparing the two normalized ratios. -/
theorem claim_C9 (s : StrandByAtoIEditing) (mm : ROINucCounts)
    (h1 : s.edited mm.A.A mm.A.G = true) (h2 : s.edited mm.T.T mm.T.C = true) :
    ¬(mm.A.A + mm.A.G ≤ f32EPSILON ∧ mm.T.T + mm.T.C ≤ f32EPSILON)
    ∧ s.roipred mm =
        (if f32EPSILON < mm.A.G ∧ mm.T.C / (mm.T.T + mm.T.C) < mm.A.G / (mm.A.A + mm.A.G)
          then .Forward
          else if f32EPSILON < mm.T.C ∧ mm.A.G / (mm.A.A + mm.A.G) < mm.T.C / (mm.T.T + mm.T.C)
          then .Reverse
          else .Unknown) := by
  have hc1 : f32EPSILON < mm.A.A + mm.A.G := by
    have := h1
    simp only [StrandByAtoIEditing.edited, Bool.and_eq_true, decide_eq_true_eq] at this
    linarith [this.1.1]
  constructor
  · rintro ⟨ha, -⟩
    exact absurd hc1 (not_lt.mpr ha)
  · simp only [StrandByAtoIEditing.roipred, h1, h2]
    rw [if_neg]
    rintro ⟨ha, -⟩
    exact absurd hc1 (not_lt.mpr ha)

/-- C9 witness: both channels qualify at matches = 8, mismatches = 8 under
minmismatches = 8, minfreq = 0.05; the coverages exceed f32::EPSILON and the
call reduces to the ratio comparison. -/
theorem claim_C9_witness :
    ¬((8 : ℚ) + 8 ≤ f32EPSILON ∧ (8 : ℚ) + 8 ≤ f32EPSILON)
    ∧ StrandByAtoIEditing.roipred ⟨8, 1/20⟩
        ⟨⟨8, 0, 8, 0⟩, FracNucCounts.zeros, FracNucCounts.zeros, ⟨0, 8, 0, 8⟩⟩ =
        (if f32EPSILON < (8 : ℚ) ∧ (8 : ℚ) / (8 + 8) < (8 : ℚ) / (8 + 8)
          then .Forward
          else if f32EPSILON < (8 : ℚ) ∧ (8 : ℚ) / (8 + 8) < (8 : ℚ) / (8 + 8)
          then .Reverse
          else .Unknown) :=
  claim_C9 ⟨8, 1/20⟩ ⟨⟨8, 0, 8, 0⟩, FracNucCounts.zeros, FracNucCounts.zeros, ⟨0, 8, 0, 8⟩⟩
    (by norm_num [StrandByAtoIEditing.edited, f32EPSILON])
    (by norm_num [StrandByAtoIEditing.edited, f32EPSILON])

/-- CountsBufferContent from src/core/counting/buffers/mod.rs: the read-only
view over whichever of the forward / reverse / unstranded slices exist. -/
structure CountsBufferContent where
  forward : Option (List NucCounts)
  reverse : Option (List NucCounts)
  unstranded : Option (List NucCounts)
deriving DecidableEq, Repr

/-- UnstrandedCountsBuffer from src/core/counting/buffers/unstrandedbuf.rs
(its legacy twin under src/rada/modules/counting/counts has the same reset,
buffer_for, content and len bodies). -/
structure UnstrandedCountsBuffer where
  buffer : List NucCounts
deriving DecidableEq, Repr

/-- Vec::resize(newlen, value): truncate to newlen, or pad with copies of
value, so the resulting length is exactly newlen. -/
def listResize {β : Type*} (l : List β) (n : ℕ) (v : β) : List β :=
  if n ≤ l.length then l.take n else l ++ List.replicate (n - l.length) v

/-- UnstrandedCountsBuffer::reset, unstrandedbuf.rs lines 21-27: resize the
storage only when the requested length differs, then fill every tally with
zeros in place. -/
def UnstrandedCountsBuffer.reset (b : UnstrandedCountsBuffer) (newlen : ℕ) :
    UnstrandedCountsBuffer :=
  let buffer :=
    if b.buffer.length ≠ newlen then listResize b.buffer newlen NucCounts.zeros else b.buffer
  ⟨buffer.map (fun _ => NucCounts.zeros)⟩

/-- UnstrandedCountsBuffer::buffer_for, unstrandedbuf.rs lines 29-32: the
whole single tally slice, ignoring the read. -/
def UnstrandedCountsBuffer.buffer_for {R : Type*} (b : UnstrandedCountsBuffer) (_ : R) :
    List NucCounts :=
  b.buffer

/-- UnstrandedCountsBuffer::content, unstrandedbuf.rs lines 34-37. -/
def UnstrandedCountsBuffer.content (b : UnstrandedCountsBuffer) : CountsBufferContent :=
  ⟨none, none, some b.buffer⟩

/-- UnstrandedCountsBuffer::len. -/
def UnstrandedCountsBuffer.len (b : UnstrandedCountsBuffer) : ℕ := b.buffer.length

theorem listResize_length {β : Type*} (l : List β) (n : ℕ) (v : β) :
    (listResize l n v).length = n := by
  rw [listResize]
  split
  · simpa using Nat.min_eq_left (by assumption)
  · simp only [List.length_append, List.length_replicate]
    omega

theorem reset_eq_replicate (b : UnstrandedCountsBuffer) (newlen : ℕ) :
    (b.reset newlen).buffer = List.replicate newlen NucCounts.zeros := by
  rw [UnstrandedCountsBuffer.reset]
  have hmap : ∀ (l : List NucCounts),
      l.map (fun _ => NucCounts.zeros) = List.replicate l.length NucCounts.zeros := by
    intro l; induction l with
    | nil => rfl
    | cons x t ih => simp [List.replicate_succ, ih]
  by_cases h : b.buffer.length ≠ newlen
  · rw [if_pos h, hmap, listResize_length]
  · rw [if_neg h, hmap]
    rw [not_ne_iff] at h
    rw [h]

/-- C5: resetting a Counting Buffer to length L1, mutating its tallies
arbitrarily (any value list of the L1-phase length), and resetting to a
different length L2 yields a buffer whose len is exactly L2 with every tally
zero, so nothing recorded during the L1 phase remains observable. -/
theorem claim_C5 (b0 : UnstrandedCountsBuffer) (L1 L2 : ℕ) (mutated : List NucCounts)
    (hlen : mutated.length = (b0.reset L1).len) (hne : L1 ≠ L2) :
    (b0.reset L1).len = L1
    ∧ ((UnstrandedCountsBuffer.mk mutated).reset L2).len = L2
    ∧ ∀ c ∈ ((UnstrandedCountsBuffer.mk mutated).reset L2).buffer, c = NucCounts.zeros := by
  refine ⟨?_, ?_, ?_⟩
  · rw [UnstrandedCountsBuffer.len, reset_eq_replicate, List.length_replicate]
  · rw [UnstrandedCountsBuffer.len, reset_eq_replicate, List.length_replicate]
  · intro c hc
    rw [reset_eq_replicate] at hc
    exact List.eq_of_mem_replicate hc

/-- C5 witness: a buffer reset to length 2, mutated to hold nonzero tallies,
then reset to length 3, has length 3 and only zero tallies. -/
theorem claim_C5_witness :
    ((UnstrandedCountsBuffer.mk []).reset 2).len = 2
    ∧ ((UnstrandedCountsBuffer.mk [⟨100, 0, 0, 0⟩, ⟨0, 5, 0, 0⟩]).reset 3).len = 3
    ∧ ∀ c ∈ ((UnstrandedCountsBuffer.mk [⟨100, 0, 0, 0⟩, ⟨0, 5, 0, 0⟩]).reset 3).buffer,
        c = NucCounts.zeros :=
  claim_C5 ⟨[]⟩ 2 3 [⟨100, 0, 0, 0⟩, ⟨0, 5, 0, 0⟩] (by decide) (by decide)

/-- C10: buffer_for of an unstranded Counting Buffer returns the entire single
tally slice for every read without inspecting the read, so any two reads in
one reset cycle are routed to identical storage, and content exposes only the
unstranded slice with forward and reverse absent. -/
theorem claim_C10 {R : Type*} (b : UnstrandedCountsBuffer) (r1 r2 : R) :
    b.buffer_for r1 = b.buffer_for r2
    ∧ b.buffer_for r1 = b.buffer
    ∧ b.content.forward = none
    ∧ b.content.reverse = none
    ∧ b.content.unstranded = some b.buffer :=
  ⟨rfl, rfl, rfl, rfl, rfl⟩

/-- Modelled from the spec: an EditingStat module (the EditingStat trait and
its implementations live under src/core/hooks/stats, which is not included in
src/). Per spec section 4.7 a statistic module observes every record of a
finalized batch; it is modelled as an accumulator state with a per-record step
function. -/
structure EditingStatM (α σ : Type*) where
  state : σ
  step : σ → α → σ

/-- Modelled from the spec: EditingStat::on_finish observes every record of
the batch, folding its step over the records. -/
def EditingStatM.on_finish {α σ : Type*} (m : EditingStatM α σ) (batch : List α) :
    EditingStatM α σ :=
  { m with state := batch.foldl m.step m.state }

/-- REATHooksEngine from src/core/hooks/engine.rs: registered statistic
modules and filters. Filters are modelled from the spec as predicates (the
Filter trait lives under src/core/hooks/filters, not included in src/): a
record is kept only if every active filter accepts it. -/
structure REATHooksEngine (α σ : Type*) where
  stats : List (EditingStatM α σ)
  filters : List (α → Bool)

/-- REATHooksEngine::on_finish, engine.rs lines 35-44: first every statistic
module observes the batch, then every filter runs over it in order. -/
def REATHooksEngine.on_finish {α σ : Type*} (e : REATHooksEngine α σ) (batch : List α) :
    REATHooksEngine α σ × List α :=
  let stats := e.stats.map (fun s => s.on_finish batch)
  let filtered := e.filters.foldl (fun b f => b.filter f) batch
  ({ e with stats := stats }, filtered)

/-- doiter from src/cli/roi/run.rs lines 117-146, taking the runner's per-item
output as input: resolve unknown strands through the predictor, let the
optional statistic process every record, then retain only the records the
output filter accepts. -/
def doiter {β τ : Type*} (results0 : List (StrandedRec β))
    (strandpred : StrandedRec β → Strand) (fl : StrandedRec β → Bool)
    (stat : Option (EditingStatM (StrandedRec β) τ)) :
    List (StrandedRec β) × Option (EditingStatM (StrandedRec β) τ) :=
  let results := results0.map (fun x =>
    if x.strand.is_unknown then { x with strand := strandpred x } else x)
  let stat := stat.map (fun s => { s with state := results.foldl s.step s.state })
  (results.filter fl, stat)

theorem foldl_filter_eq_filter_all {α : Type*} (fs : List (α → Bool)) :
    ∀ (b : List α), fs.foldl (fun acc f => acc.filter f) b
      = b.filter (fun r => fs.all (fun f => f r)) := by
  induction fs with
  | nil => intro b; simp
  | cons f fs ih =>
    intro b
    rw [List.foldl_cons, ih, List.filter_filter]
    congr 1
    funext r
    simp [Bool.and_comm]

/-- C4: in the hooks pipeline every registered statistic module observes every
record of the finalized batch before any filter runs: after on_finish each
stat state equals the fold of its step over the unfiltered batch, while the
batch itself is reduced to the records accepted by every filter; likewise in
the per-item doiter the statistic folds over all post-prediction records, also
those the output filter rejects. -/
theorem claim_C4 {α σ β τ : Type*} (e : REATHooksEngine α σ) (batch : List α)
    (results0 : List (StrandedRec β)) (strandpred : StrandedRec β → Strand)
    (fl : StrandedRec β → Bool) (st : EditingStatM (StrandedRec β) τ) :
    ((e.on_finish batch).1.stats.map EditingStatM.state
      = e.stats.map (fun s => batch.foldl s.step s.state))
    ∧ ((e.on_finish batch).2 = batch.filter (fun r => e.filters.all (fun f => f r)))
    ∧ ((doiter results0 strandpred fl (some st)).2.map EditingStatM.state
      = some ((results0.map (fun x =>
          if x.strand.is_unknown then { x with strand := strandpred x } else x)).foldl
            st.step st.state))
    ∧ ((doiter results0 strandpred fl (some st)).1
      = (results0.map (fun x =>
          if x.strand.is_unknown then { x with strand := strandpred x } else x)).filter fl) := by
  refine ⟨?_, ?_, rfl, rfl⟩
  · rw [REATHooksEngine.on_finish]
    simp [EditingStatM.on_finish]
  · rw [REATHooksEngine.on_finish]
    simpa using foldl_filter_eq_filter_all e.filters batch

/-- A Workload item from src/rada/run/workload: an interval plus a name. -/
structure Workload (ι : Type*) where
  interval : ι
  name : String

/-- NucCounterContent: the counted interval plus the per-strand counts view,
as returned by Context::nuccontent in the rada runner (None when the interval
had zero informative coverage). -/
structure NucCounterContent (ι : Type*) where
  interval : ι
  counts : CountsBufferContent

/-- IntervalSummary from the rada summary module: interval, name, strand and
the mismatch tally (kept opaque). -/
structure IntervalSummary (ι μ : Type*) where
  interval : ι
  name : String
  strand : Strand
  mismatches : μ

/-- The external collaborators the per-item body of rada run (regions.rs)
calls into: reference access, reference-sequence prediction, summary
construction, coverage readout, strand prediction, and the summary filter.
They are kept abstract, exactly as the Context trait bounds do. -/
structure RunEnv (ι ρ μ : Type*) where
  reference : ι → ρ
  predseq : ρ → CountsBufferContent → List Nucleotide
  from_counts : ι → String → Strand → List Nucleotide → List NucCounts → IntervalSummary ι μ
  coverage : μ → ℕ
  strandpred : ι → μ → Strand
  filter : IntervalSummary ι μ → Bool

/-- The summary-building loop of run, regions.rs lines 70-96: for each of the
forward / reverse / unstranded slices that exist, build a summary, skip it if
its coverage is zero, predict the strand of unstranded summaries, and keep it
only if the filter accepts it. -/
def buildSummaries {ι ρ μ : Type*} (env : RunEnv ι ρ μ) (w : Workload ι)
    (content : NucCounterContent ι) : List (IntervalSummary ι μ) :=
  let sequence := env.predseq (env.reference content.interval) content.counts
  let step := fun (acc : List (IntervalSummary ι μ)) (sc : Strand × Option (List NucCounts)) =>
    match sc.2 with
    | none => acc
    | some counts =>
      let summary := env.from_counts content.interval w.name sc.1 sequence counts
      if env.coverage summary.mismatches = 0 then acc
      else
        let summary :=
          if sc.1.same .Unknown then
            { summary with strand := env.strandpred summary.interval summary.mismatches }
          else summary
        if env.filter summary then acc ++ [summary] else acc
  [(Strand.Forward, content.counts.forward), (Strand.Reverse, content.counts.reverse),
    (Strand.Unknown, content.counts.unstranded)].foldl step []

/-- The per-item body of run, regions.rs lines 55-97, taking the counting
result for the item as input. It returns the records produced for the item
together with the list of arguments the per-item progress hook was invoked
with: a missing content (zero informative coverage) short-circuits to zero
records after calling the hook on the empty batch. -/
def runItem {ι ρ μ : Type*} (env : RunEnv ι ρ μ) (w : Workload ι)
    (content : Option (NucCounterContent ι)) :
    List (IntervalSummary ι μ) × List (List (IntervalSummary ι μ)) :=
  match content with
  | none => ([], [[]])
  | some c =>
    let result := buildSummaries env w c
    (result, [result])

/-- C6: an item whose interval has zero informative coverage yields zero
records while the per-item progress hook is still invoked (once, on the empty
batch); the hook is invoked exactly once for every item; items with content
contribute the records of the summary-building loop normally; and content
whose summaries all have zero coverage also yields zero records without
aborting. -/
theorem claim_C6 {ι ρ μ : Type*} (env : RunEnv ι ρ μ) (w : Workload ι) :
    (runItem env w none = ([], [[]]))
    ∧ (∀ content, (runItem env w content).2 = [(runItem env w content).1])
    ∧ (∀ c, (runItem env w (some c)).1 = buildSummaries env w c)
    ∧ (∀ c, (∀ st counts,
        env.coverage (env.from_counts c.interval w.name st
          (env.predseq (env.reference c.interval) c.counts) counts).mismatches = 0) →
        (runItem env w (some c)).1 = []) := by
  refine ⟨rfl, ?_, fun c => rfl, ?_⟩
  · intro content
    cases content <;> rfl
  · intro c hz
    show buildSummaries env w c = []
    rw [buildSummaries]
    cases hf : c.counts.forward <;> cases hr : c.counts.reverse <;>
      cases hu : c.counts.unstranded <;>
      simp [hf, hr, hu, hz]

/-- C6 witness: with a coverage readout that reports zero for every summary,
a concrete item with populated content still produces zero records. -/
theorem claim_C6_witness :
    (runItem
      (⟨fun _ => (), fun _ _ => [], fun i n st sq _ => ⟨i, n, st, ()⟩,
        fun _ => 0, fun _ _ => Strand.Forward, fun _ => true⟩ : RunEnv Unit Unit Unit)
      ⟨(), "roi"⟩
      (some ⟨(), ⟨some [NucCounts.zeros], none, some [NucCounts.zeros]⟩⟩)).1 = [] :=
  (claim_C6 _ _).2.2.2 ⟨(), ⟨some [NucCounts.zeros], none, some [NucCounts.zeros]⟩⟩
    (fun _ _ => rfl)

/-- One serialized row of ugly_in_contig_sort_and_to_csv, vec.rs lines 57-60:
the fields that the in-contig comparator inspects — premasked start and end
(u64), the transcription strand of the owning vector, and the region name. -/
structure SerRecord where
  start : ℕ
  stop : ℕ
  strand : Strand
  name : String

/-- pos_then_strand_then_name, vec.rs lines 43-56: compare premasked start,
then premasked end, then the strand symbol string, then the region name. -/
def pos_then_strand_then_name (first second : SerRecord) : Ordering :=
  let ord := cmp first.start second.start
  let ord := if ord = .eq then cmp first.stop second.stop else ord
  let ord :=
    if ord = .eq then cmp first.strand.strand_symbol second.strand.strand_symbol else ord
  if ord = .eq then cmp first.name second.name else ord

/-- One data row of an ROIMismatchesVec, with the fields the serialization
order depends on. -/
structure ROIRow where
  start : ℕ
  stop : ℕ
  name : String

/-- ROIMismatchesVec from src/core/mismatches/roi/vec.rs: a contig, the
transcription strand, and the data rows. -/
structure ROIMismatchesVecM where
  contig : String
  trstrand : Strand
  data : List ROIRow

/-- The flat_map step of ugly_in_contig_sort_and_to_csv: every data row of
every vector becomes one serializable record carrying the vector's
transcription strand. -/
def flatRecords (items : List ROIMismatchesVecM) : List SerRecord :=
  items.flatMap (fun x => x.data.map (fun d => ⟨d.start, d.stop, x.trstrand, d.name⟩))

/-- The boolean less-or-equal view of the comparator, as a stable sort
consumes it: true unless the comparator answers Greater. -/
def serLe (a b : SerRecord) : Bool := decide (pos_then_strand_then_name a b ≠ .gt)

/-- The sorted_by step of ugly_in_contig_sort_and_to_csv: a stable sort of the
flattened records under pos_then_strand_then_name; records are then serialized
in exactly this order. -/
def uglySortForCsv (items : List ROIMismatchesVecM) : List SerRecord :=
  (flatRecords items).mergeSort serLe

theorem cmp_toLex_then {β γ : Type*} [LinearOrder β] [LinearOrder γ]
    (a₁ b₁ : β) (a₂ b₂ : γ) :
    cmp (toLex (a₁, a₂)) (toLex (b₁, b₂))
      = if cmp a₁ b₁ = .eq then cmp a₂ b₂ else cmp a₁ b₁ := by
  rcases lt_trichotomy a₁ b₁ with h | h | h
  · have hl : cmp a₁ b₁ = .lt := (cmp_eq_lt_iff _ _).mpr h
    have hL : cmp (toLex (a₁, a₂)) (toLex (b₁, b₂)) = .lt :=
      (cmp_eq_lt_iff _ _).mpr ((Prod.Lex.lt_iff _ _).mpr (Or.inl h))
    rw [hL, hl]
    rfl
  · subst h
    have he : cmp a₁ a₁ = .eq := cmp_self_eq_eq a₁
    rw [he, if_pos rfl]
    rcases lt_trichotomy a₂ b₂ with h2 | h2 | h2
    · rw [(cmp_eq_lt_iff _ _).mpr ((Prod.Lex.lt_iff (a₁, a₂) (a₁, b₂)).mpr (Or.inr ⟨rfl, h2⟩)),
        (cmp_eq_lt_iff _ _).mpr h2]
    · subst h2
      rw [cmp_self_eq_eq, cmp_self_eq_eq]
    · rw [(cmp_eq_gt_iff _ _).mpr ((Prod.Lex.lt_iff (a₁, b₂) (a₁, a₂)).mpr (Or.inr ⟨rfl, h2⟩)),
        (cmp_eq_gt_iff _ _).mpr h2]
  · have hg : cmp a₁ b₁ = .gt := (cmp_eq_gt_iff _ _).mpr h
    have hG : cmp (toLex (a₁, a₂)) (toLex (b₁, b₂)) = .gt :=
      (cmp_eq_gt_iff _ _).mpr ((Prod.Lex.lt_iff _ _).mpr (Or.inl h))
    rw [hG, hg]
    rfl

/-- The lexicographic key realized by the comparator: start, then end, then
strand symbol, then name. -/
def sortKey (r : SerRecord) : Lex (ℕ × Lex (ℕ × Lex (String × String))) :=
  toLex (r.start, toLex (r.stop, toLex (r.strand.strand_symbol, r.name)))

theorem ordering_chain_assoc (o₁ o₂ o₃ o₄ : Ordering) :
    (let a := if o₁ = .eq then o₂ else o₁
     let b := if a = .eq then o₃ else a
     if b = .eq then o₄ else b)
    = if o₁ = .eq then (if o₂ = .eq then (if o₃ = .eq then o₄ else o₃) else o₂) else o₁ := by
  cases o₁ <;> cases o₂ <;> cases o₃ <;> rfl

theorem cmp_string_order_eq (a b : String) :
    @cmp String Preorder.toLT instDecidableLt_mathlib a b
      = @cmp String String.LT' String.decidableLT a b := by
  unfold cmp cmpUsing
  rcases lt_trichotomy a b with h | h | h
  · rw [if_pos h, if_pos h]
  · have h1 : ¬a < b := by rw [h]; exact lt_irrefl b
    have h2 : ¬b < a := by rw [h]; exact lt_irrefl b
    rw [if_neg h1, if_neg h2, if_neg h1, if_neg h2]
  · have h1 : ¬a < b := asymm h
    rw [if_neg h1, if_pos h, if_neg h1, if_pos h]

theorem pos_then_strand_then_name_eq_cmp_sortKey (a b : SerRecord) :
    pos_then_strand_then_name a b = cmp (sortKey a) (sortKey b) := by
  rw [sortKey, sortKey, cmp_toLex_then, cmp_toLex_then, cmp_toLex_then]
  simp only [cmp_string_order_eq]
  exact ordering_chain_assoc (cmp a.start b.start) (cmp a.stop b.stop)
    (cmp a.strand.strand_symbol b.strand.strand_symbol) (cmp a.name b.name)

theorem cmp_ne_gt_iff_le {β : Type*} [LinearOrder β] (a b : β) :
    cmp a b ≠ .gt ↔ a ≤ b := by
  rw [Ne, cmp_eq_gt_iff, not_lt]

/-- C7: the records emitted by ugly_in_contig_sort_and_to_csv are exactly the
flattened input rows, arranged so that for every pair of emitted records the
earlier one compares less-than-or-equal to the later one under
pos_then_strand_then_name (premasked start, then end, then strand symbol, then
name). -/
theorem claim_C7 (items : List ROIMismatchesVecM) :
    List.Perm (uglySortForCsv items) (flatRecords items)
    ∧ (uglySortForCsv items).Pairwise
        (fun a b => pos_then_strand_then_name a b ≠ .gt) := by
  constructor
  · exact List.mergeSort_perm _ _
  · have h := @List.sorted_mergeSort SerRecord serLe
      (fun a b c hab hbc => by
        rw [serLe, decide_eq_true_eq, pos_then_strand_then_name_eq_cmp_sortKey,
          cmp_ne_gt_iff_le] at hab hbc ⊢
        exact le_trans hab hbc)
      (fun a b => by
        rw [serLe, serLe, Bool.or_eq_true, decide_eq_true_eq, decide_eq_true_eq,
          pos_then_strand_then_name_eq_cmp_sortKey,
          pos_then_strand_then_name_eq_cmp_sortKey, cmp_ne_gt_iff_le, cmp_ne_gt_iff_le]
        exact le_total _ _)
      (flatRecords items)
    exact h.imp (fun hab => by rwa [serLe, decide_eq_true_eq] at hab)

/-- Modelled from the spec: the EditingIndex statistic (src/core/stats only
declares the IntervalBasedStat trait: Add + Default with a per-record process;
the EditingIndex implementation in src/core/stats/editing_index.rs is not
included in src/). Per the spec glossary it summarizes the rate of a specific
mismatch type, so it accumulates mismatch and coverage sums for the A→G and
T→C channels; Default is all zeros and Add is fieldwise addition. -/
structure EditingIndex where
  a2g_mismatches : ℚ
  a2g_coverage : ℚ
  t2c_mismatches : ℚ
  t2c_coverage : ℚ
deriving DecidableEq, Repr

/-- EditingIndex Default: all sums zero. -/
def EditingIndex.default : EditingIndex := ⟨0, 0, 0, 0⟩

/-- EditingIndex Add: fieldwise sum, modelled from the IntervalBasedStat
Add bound. -/
def EditingIndex.add (x y : EditingIndex) : EditingIndex :=
  ⟨x.a2g_mismatches + y.a2g_mismatches, x.a2g_coverage + y.a2g_coverage,
    x.t2c_mismatches + y.t2c_mismatches, x.t2c_coverage + y.t2c_coverage⟩

/-- The contribution of one summary's mismatch matrix to the editing index. -/
def EditingIndex.delta (mm : ROINucCounts) : EditingIndex :=
  ⟨mm.A.G, mm.A.A + mm.A.G, mm.T.C, mm.T.T + mm.T.C⟩

/-- Modelled from the spec: IntervalBasedStat::process folds one summary into
the accumulator. -/
def EditingIndex.process (e : EditingIndex) (mm : ROINucCounts) : EditingIndex :=
  e.add (EditingIndex.delta mm)

/-- Processing a record list in order, as one single-threaded pass does. -/
def EditingIndex.processAll (e : EditingIndex) (records : List ROINucCounts) : EditingIndex :=
  records.foldl EditingIndex.process e

/-- Modelled from the spec: combine(partials) as invoked in the process
driver of src/cli/roi/run.rs — merge the per-thread partials by summation. -/
def EditingIndex.combine (parts : List EditingIndex) : EditingIndex :=
  parts.foldl EditingIndex.add EditingIndex.default

theorem EditingIndex.add_assoc (x y z : EditingIndex) :
    (x.add y).add z = x.add (y.add z) := by
  simp only [EditingIndex.add, EditingIndex.mk.injEq]
  refine ⟨?_, ?_, ?_, ?_⟩ <;> ring

theorem EditingIndex.add_comm (x y : EditingIndex) : x.add y = y.add x := by
  simp only [EditingIndex.add, EditingIndex.mk.injEq]
  refine ⟨?_, ?_, ?_, ?_⟩ <;> ring

theorem EditingIndex.add_default (x : EditingIndex) : x.add EditingIndex.default = x := by
  simp [EditingIndex.add, EditingIndex.default]

theorem EditingIndex.default_add (x : EditingIndex) : EditingIndex.default.add x = x := by
  simp [EditingIndex.add, EditingIndex.default]

theorem EditingIndex.foldl_add_eq (l : List EditingIndex) :
    ∀ e : EditingIndex, l.foldl EditingIndex.add e = e.add (EditingIndex.combine l) := by
  induction l with
  | nil => intro e; simp [EditingIndex.combine, EditingIndex.add_default]
  | cons x t ih =>
    intro e
    rw [EditingIndex.combine, List.foldl_cons, List.foldl_cons, ih, ih,
      EditingIndex.default_add, ← EditingIndex.add_assoc]

theorem EditingIndex.combine_perm {l₁ l₂ : List EditingIndex} (h : List.Perm l₁ l₂) :
    EditingIndex.combine l₁ = EditingIndex.combine l₂ := by
  induction h with
  | nil => rfl
  | cons x h ih =>
    rw [EditingIndex.combine, EditingIndex.combine, List.foldl_cons, List.foldl_cons,
      EditingIndex.foldl_add_eq, EditingIndex.foldl_add_eq, ih]
  | swap x y l =>
    rw [EditingIndex.combine, EditingIndex.combine, List.foldl_cons, List.foldl_cons,
      List.foldl_cons, List.foldl_cons, EditingIndex.foldl_add_eq, EditingIndex.foldl_add_eq]
    rw [EditingIndex.default_add, EditingIndex.default_add, EditingIndex.add_assoc,
      EditingIndex.add_assoc, ← EditingIndex.add_assoc, EditingIndex.add_comm y x,
      EditingIndex.add_assoc]
  | trans _ _ ih1 ih2 => exact ih1.trans ih2

theorem EditingIndex.processAll_eq (l : List ROINucCounts) :
    ∀ e : EditingIndex,
      EditingIndex.processAll e l = e.add (EditingIndex.processAll EditingIndex.default l) := by
  induction l with
  | nil => intro e; simp [EditingIndex.processAll, EditingIndex.add_default]
  | cons mm t ih =>
    intro e
    calc EditingIndex.processAll e (mm :: t)
        = EditingIndex.processAll (EditingIndex.process e mm) t := rfl
      _ = (EditingIndex.process e mm).add (EditingIndex.processAll EditingIndex.default t) :=
          ih (EditingIndex.process e mm)
      _ = e.add ((EditingIndex.delta mm).add
            (EditingIndex.processAll EditingIndex.default t)) := by
          rw [EditingIndex.process, EditingIndex.add_assoc]
      _ = e.add ((EditingIndex.process EditingIndex.default mm).add
            (EditingIndex.processAll EditingIndex.default t)) := by
          rw [EditingIndex.process, EditingIndex.default_add]
      _ = e.add (EditingIndex.processAll (EditingIndex.process EditingIndex.default mm) t) := by
          rw [ih (EditingIndex.process EditingIndex.default mm)]
      _ = e.add (EditingIndex.processAll EditingIndex.default (mm :: t)) := rfl

theorem EditingIndex.processAll_append (l₁ l₂ : List ROINucCounts) :
    EditingIndex.processAll EditingIndex.default (l₁ ++ l₂)
      = (EditingIndex.processAll EditingIndex.default l₁).add
          (EditingIndex.processAll EditingIndex.default l₂) := by
  rw [EditingIndex.processAll, List.foldl_append]
  exact EditingIndex.processAll_eq l₂ _

/-- C8: the editing-index combine operation is associative and commutative,
combining per-thread partials in any order yields the same merged statistic,
and combining the per-chunk partials of any chunking of the records equals
processing all records in one single-threaded pass, so the chunking of the
workload across threads never changes the final statistic. -/
theorem claim_C8 :
    (∀ x y z : EditingIndex, (x.add y).add z = x.add (y.add z))
    ∧ (∀ x y : EditingIndex, x.add y = y.add x)
    ∧ (∀ parts parts' : List EditingIndex, List.Perm parts parts' →
        EditingIndex.combine parts = EditingIndex.combine parts')
    ∧ (∀ chunks : List (List ROINucCounts),
        EditingIndex.combine (chunks.map (EditingIndex.processAll EditingIndex.default))
          = EditingIndex.processAll EditingIndex.default chunks.flatten) := by
  refine ⟨EditingIndex.add_assoc, EditingIndex.add_comm,
    fun _ _ h => EditingIndex.combine_perm h, ?_⟩
  intro chunks
  induction chunks with
  | nil => rfl
  | cons c cs ih =>
    rw [List.map_cons, EditingIndex.combine, List.foldl_cons, EditingIndex.foldl_add_eq,
      EditingIndex.default_add, ih, List.flatten_cons, EditingIndex.processAll_append]

/-- C8 witness: combining two concrete partial statistics in either order
gives the same merged statistic. -/
theorem claim_C8_witness :
    EditingIndex.combine [⟨1, 2, 3, 4⟩, ⟨5, 6, 7, 8⟩]
      = EditingIndex.combine [⟨5, 6, 7, 8⟩, ⟨1, 2, 3, 4⟩] :=
  claim_C8.2.2.1 ([⟨1, 2, 3, 4⟩, ⟨5, 6, 7, 8⟩] : List EditingIndex)
    ([⟨5, 6, 7, 8⟩, ⟨1, 2, 3, 4⟩] : List EditingIndex)
    (List.Perm.swap (⟨5, 6, 7, 8⟩ : EditingIndex) (⟨1, 2, 3, 4⟩ : EditingIndex) [])

end Reat
